import Mathlib

/-!
Shallow embedding of the Health-Tracker habit application core.

Time model: an instant is an integer number of hours since an epoch placed
at a Sunday midnight.  Division below is Int.ediv, which for the positive
constant divisors used here is floor division, so it matches the JS Date
local-midnight truncation (setHours(0,0,0,0)) and day-of-week (getDay())
semantics on a uniform-day calendar.
-/

namespace HealthTracker

/-- Hours per calendar day in the model. -/
def dayLen : ℤ := 24

/-- Start of the calendar day containing t (JS: setHours(0,0,0,0)). -/
def dayStart (t : ℤ) : ℤ := dayLen * (t / dayLen)

/-- Day of week of the day containing t, with 0 = Sunday (JS: getDay()). -/
def dayOfWeek (t : ℤ) : ℤ := (t / dayLen) % 7

/-- Midnight of the Sunday starting the week containing t
    (JS: setDate(getDate() - getDay()) applied to a midnight date,
    or followed by setHours(0,0,0,0)). -/
def weekStart (t : ℤ) : ℤ := dayStart t - dayLen * dayOfWeek t

/-- Instant shifted back to the Sunday of its week KEEPING its time of day
    (JS: setDate(getDate() - getDay()) with no truncation of hours).  This
    is what the completedToday weekly branch in src/app/api/habits/route.ts
    lines 96-98 actually computes. -/
def weekAnchor (t : ℤ) : ℤ := t - dayLen * dayOfWeek t

/-- Habit frequency enum (schema: daily | weekly). -/
inductive Frequency
  | daily
  | weekly
deriving DecidableEq

/-- Length of one period in hours: one day or seven days. -/
def periodLen : Frequency → ℤ
  | .daily => dayLen
  | .weekly => 7 * dayLen

/-- Normalization of a timestamp to the start of its calendar period:
    start of day (daily) or the Sunday-midnight week start (weekly). -/
def normalizePeriod : Frequency → ℤ → ℤ
  | .daily, t => dayStart t
  | .weekly, t => weekStart t

/-- The streak walk of the GET handlers (src/app/api/habits/route.ts lines
    52-85, duplicated in src/app/api/friends/route.ts and the profile GET):
    the input list holds the already period-normalized completion timestamps
    in the order the handler iterates them; the cursor starts at the current
    period and steps back one period on each hit; a strictly earlier
    normalized completion breaks the walk; a later one is skipped. -/
def streakLoop (p : ℤ) : ℤ → List ℤ → ℕ
  | _, [] => 0
  | cursor, c :: rest =>
    if c = cursor then streakLoop p (cursor - p) rest + 1
    else if c < cursor then 0
    else streakLoop p cursor rest

/-- Streak computation for one habit: normalize each completion to its
    period start (in iteration order) and run the walk with the cursor
    initialized to the current period. -/
def computeStreak (f : Frequency) (now : ℤ) (comps : List ℤ) : ℕ :=
  match f with
  | .daily => streakLoop dayLen (dayStart now) (comps.map dayStart)
  | .weekly => streakLoop (7 * dayLen) (weekStart (dayStart now)) (comps.map weekStart)

/-- The completedToday computation of src/app/api/habits/route.ts lines
    88-100.  Note the weekly branch compares the completion shifted to the
    Sunday of its week WITHOUT truncating its time of day (weekAnchor)
    against the midnight week start of today. -/
def completedCurrentPeriod (f : Frequency) (now : ℤ) (comps : List ℤ) : Bool :=
  comps.any fun t =>
    match f with
    | .daily => decide (dayStart t = dayStart now)
    | .weekly => decide (weekAnchor t = weekStart (dayStart now))

/-- Count of completions in the trailing 30-day window
    (completedAt >= now - 30 days). -/
def recentCount (now : ℤ) (comps : List ℤ) : ℕ :=
  comps.countP fun t => decide (now - 30 * dayLen ≤ t)

/-- Expected completions over 30 days: 30 for daily, Math.ceil(30/7) for
    weekly. -/
def expectedCompletions : Frequency → ℕ
  | .daily => 30
  | .weekly => (⌈(30 : ℚ) / 7⌉).toNat

/-- Progress percentage of src/app/api/habits/route.ts lines 102-107:
    Math.min(100, Math.round((recent / expected) * 100)).  Math.round on a
    nonnegative argument is floor(x + 1/2), which is the Mathlib round; on
    the rationals arising here the JS double computation is exact enough
    that it rounds to the same integer, so the arithmetic is modelled
    exactly over the rationals. -/
def progressPercent (f : Frequency) (now : ℤ) (comps : List ℤ) : ℕ :=
  min 100 (round ((recentCount now comps : ℚ) / (expectedCompletions f : ℚ) * 100)).toNat

/-- Result of the inline per-habit stats computation. -/
structure HabitStats where
  streak : ℕ
  completedToday : Bool
  progress : ℕ
deriving DecidableEq

/-- The per-habit stats block of the habits GET handler. -/
def computeHabitStats (f : Frequency) (now : ℤ) (comps : List ℤ) : HabitStats :=
  { streak := computeStreak f now comps
    completedToday := completedCurrentPeriod f now comps
    progress := progressPercent f now comps }

theorem weekStart_dayStart (t : ℤ) : weekStart (dayStart t) = weekStart t := by
  simp only [weekStart, dayStart, dayOfWeek, dayLen]
  omega

theorem expectedCompletions_weekly : expectedCompletions .weekly = 5 := by
  have h : ⌈(30 : ℚ) / 7⌉ = 5 := by
    rw [Int.ceil_eq_iff]
    norm_num
  simp [expectedCompletions, h]

/-- Descending run of period starts: start, start - p, ..., start - (n-1)p. -/
def runList (start p : ℤ) : ℕ → List ℤ
  | 0 => []
  | n + 1 => start :: runList (start - p) p n

theorem streakLoop_le_length (p : ℤ) (cursor : ℤ) (l : List ℤ) :
    streakLoop p cursor l ≤ l.length := by
  induction l generalizing cursor with
  | nil => simp [streakLoop]
  | cons c rest ih =>
    simp only [streakLoop, List.length_cons]
    split
    · exact Nat.succ_le_succ (ih _)
    · split
      · exact Nat.zero_le _
      · exact Nat.le_succ_of_le (ih _)

theorem streakLoop_run (p : ℤ) :
    ∀ (m : ℕ) (start : ℤ) (tail : List ℤ),
      (∀ c, tail.head? = some c → c < start - m * p) →
      streakLoop p start (runList start p m ++ tail) = m := by
  intro m
  induction m with
  | zero =>
    intro start tail h
    cases tail with
    | nil => simp [runList, streakLoop]
    | cons c rest =>
      have hc : c < start := by simpa using h c rfl
      simp [runList, streakLoop, hc, ne_of_lt hc]
  | succ n ih =>
    intro start tail h
    have hrec := ih (start - p) tail ?_
    · simp [runList, streakLoop, hrec]
    · intro c hc
      have hlt := h c hc
      push_cast at hlt ⊢
      linarith

theorem runList_take (p : ℤ) :
    ∀ (n k : ℕ) (start : ℤ), (runList start p n).take k = runList start p (min k n) := by
  intro n
  induction n with
  | zero => intro k start; simp [runList]
  | succ n ih =>
    intro k start
    cases k with
    | zero => simp [runList]
    | succ k => simp [runList, ih, Nat.succ_min_succ]

theorem computeStreak_le_length (f : Frequency) (now : ℤ) (comps : List ℤ) :
    computeStreak f now comps ≤ comps.length := by
  cases f <;>
    simpa [computeStreak] using streakLoop_le_length _ _ (comps.map _)

/-- Core streak characterization: if the period-normalized completions, in
    iteration order, form a consecutive descending run of m periods starting
    at the current period, followed by a tail whose first element (if any)
    lies strictly before the period after the run, then the walk reports m. -/
theorem computeStreak_run (f : Frequency) (asOf : ℤ) (ts : List ℤ) (m : ℕ) (tail : List ℤ)
    (hmap : ts.map (normalizePeriod f) = runList (normalizePeriod f asOf) (periodLen f) m ++ tail)
    (hgap : ∀ c, tail.head? = some c → c < normalizePeriod f asOf - m * periodLen f) :
    computeStreak f asOf ts = m := by
  cases f with
  | daily =>
    have : computeStreak .daily asOf ts =
        streakLoop (periodLen .daily) (normalizePeriod .daily asOf)
          (ts.map (normalizePeriod .daily)) := rfl
    rw [this, hmap]
    exact streakLoop_run _ _ _ _ hgap
  | weekly =>
    have hdef : computeStreak .weekly asOf ts =
        streakLoop (periodLen .weekly) (weekStart (dayStart asOf))
          (ts.map (normalizePeriod .weekly)) := rfl
    rw [hdef, weekStart_dayStart, hmap]
    exact streakLoop_run _ _ _ _ hgap

/-- Permutations leave List.any unchanged. -/
theorem perm_any_eq {l1 l2 : List ℤ} (h : l1.Perm l2) (p : ℤ → Bool) :
    l1.any p = l2.any p := by
  cases hb : l2.any p with
  | true =>
    rw [List.any_eq_true] at hb ⊢
    obtain ⟨x, hx, hpx⟩ := hb
    exact ⟨x, h.mem_iff.mpr hx, hpx⟩
  | false =>
    rw [List.any_eq_false] at hb ⊢
    intro x hx
    exact hb x (h.mem_iff.mp hx)

/-- The prisma fetch feeding the three streak call sites (habits listing,
    profile stats, activity feed): completions of one habit ordered
    descending by completedAt and capped at 30 rows (orderBy desc, take 30).
    The database ordering is modelled by a stable insertion sort. -/
def fetchRecent30 (history : List ℤ) : List ℤ :=
  (List.insertionSort (fun a b => b ≤ a) history).take 30

/-- Streak as reported by the habits listing, the profile stats and the
    activity feed: the walk runs over the 30 most recent completions only. -/
def listedStreak (f : Frequency) (now : ℤ) (history : List ℤ) : ℕ :=
  computeStreak f now (fetchRecent30 history)

/-- C3: for every frequency, if the period-normalized completion history (in
    descending order, one completion per period) is a consecutive run of m
    periods starting at the evaluation instant's period, followed either by
    nothing or by a gap (a completion strictly before the period after the
    run), the computed streak is exactly m; in particular k consecutive
    periods before the current one give streak k+1, and a gap caps the
    streak at the count before it. -/
theorem habit_streak_counts_run_and_stops_at_gap :
    ∀ (f : Frequency) (asOf : ℤ) (ts : List ℤ) (m : ℕ) (tail : List ℤ),
      ts.map (normalizePeriod f) = runList (normalizePeriod f asOf) (periodLen f) m ++ tail →
      (∀ c, tail.head? = some c → c < normalizePeriod f asOf - m * periodLen f) →
      computeStreak f asOf ts = m :=
  fun f asOf ts m tail hmap hgap => computeStreak_run f asOf ts m tail hmap hgap

/-- Witness for C3, spec Scenario C: weekly habit evaluated on Wednesday
    noon of week 1 (hour 250), completions on Wednesday hour 245 (current
    week) and on Tuesday hour 60 (prior week), none two weeks back, give
    streak 2. -/
theorem habit_streak_counts_run_and_stops_at_gap_witness :
    (([(245 : ℤ), 60].map (normalizePeriod .weekly) =
        runList (normalizePeriod .weekly 250) (periodLen .weekly) 2 ++ []) ∧
      (∀ c : ℤ, ([] : List ℤ).head? = some c →
        c < normalizePeriod .weekly 250 - 2 * periodLen .weekly)) ∧
    computeStreak .weekly 250 [245, 60] = 2 :=
  ⟨⟨by decide, fun c hc => by simp at hc⟩,
    habit_streak_counts_run_and_stops_at_gap .weekly 250 [245, 60] 2 []
      (by decide) (fun c hc => by simp at hc)⟩

/-- C10: every reported streak is at most 30 because the walk only sees the
    30 most recent fetched completions; and a true consecutive run of n ≥ 30
    periods up to the current one is reported as exactly 30. -/
theorem listedStreak_at_most_30 :
    ∀ (f : Frequency) (now : ℤ) (history : List ℤ),
      listedStreak f now history ≤ 30 ∧
      (∀ n : ℕ, 30 ≤ n →
        (List.insertionSort (fun a b => b ≤ a) history).map (normalizePeriod f) =
          runList (normalizePeriod f now) (periodLen f) n →
        listedStreak f now history = 30) := by
  intro f now history
  constructor
  · calc listedStreak f now history ≤ (fetchRecent30 history).length :=
          computeStreak_le_length _ _ _
      _ ≤ 30 := by simp [fetchRecent30]
  · intro n hn hmap
    apply computeStreak_run f now _ 30 []
    · rw [fetchRecent30, List.map_take, hmap, runList_take, Nat.min_eq_left hn,
        List.append_nil]
    · intro c hc
      simp at hc

/-- Witness for C10: a daily history of 31 consecutive midnights ending at
    the evaluation day is reported as streak 30. -/
theorem listedStreak_at_most_30_witness :
    ((30 : ℕ) ≤ 31 ∧
      (List.insertionSort (fun a b => b ≤ a)
          ((List.range 31).map (fun i => (24 : ℤ) * (i : ℤ)))).map (normalizePeriod .daily) =
        runList (normalizePeriod .daily 720) (periodLen .daily) 31) ∧
    listedStreak .daily 720 ((List.range 31).map (fun i => (24 : ℤ) * (i : ℤ))) = 30 :=
  ⟨⟨by decide, by decide⟩,
    (listedStreak_at_most_30 .daily 720 ((List.range 31).map (fun i => (24 : ℤ) * (i : ℤ)))).2
      31 (by decide) (by decide)⟩

/-- C1 (code bug evidence): for a weekly habit, a completion inside the
    current calendar week but not stamped exactly at midnight is NOT
    reported as completing the current period, even though its normalized
    week equals the evaluation instant's normalized week: the code compares
    the completion shifted to its week's Sunday with its time of day kept
    (weekAnchor) against the midnight week start.  Input: asOf Wednesday
    12:00 of week 0 (hour 84), one completion Tuesday 10:00 of the same
    week (hour 58). -/
theorem completedCurrentPeriod_weekly_nonmidnight_false :
    normalizePeriod .weekly 58 = normalizePeriod .weekly 84 ∧
    completedCurrentPeriod .weekly 84 [58] = false := by decide

/-- C2 counterexample: two permutations of the same completion list on which
    the stats computation returns different results (streak 0 versus 1):
    the engine does not sort its input. -/
theorem computeHabitStats_not_perm_invariant :
    List.Perm [(192 : ℤ), 240] [240, 192] ∧
    computeHabitStats .daily 240 [192, 240] ≠ computeHabitStats .daily 240 [240, 192] :=
  ⟨List.Perm.swap 240 192 [],
    fun h => absurd (congrArg HabitStats.streak h) (by decide)⟩

/-- C2 amended: of the three outputs, completedCurrentPeriod and
    progressPercent are invariant under permutations of the completion
    list; the streak component is order-dependent (the engine does not sort
    and relies on the database's descending order). -/
theorem computeHabitStats_perm_invariant_parts :
    ∀ (f : Frequency) (now : ℤ) (l1 l2 : List ℤ), l1.Perm l2 →
      (computeHabitStats f now l1).completedToday =
        (computeHabitStats f now l2).completedToday ∧
      (computeHabitStats f now l1).progress = (computeHabitStats f now l2).progress := by
  intro f now l1 l2 h
  constructor
  · show completedCurrentPeriod f now l1 = completedCurrentPeriod f now l2
    exact perm_any_eq h _
  · show progressPercent f now l1 = progressPercent f now l2
    simp only [progressPercent, recentCount, h.countP_eq]

/-- Witness for the amended C2 at a concrete permutation pair. -/
theorem computeHabitStats_perm_invariant_parts_witness :
    List.Perm [(192 : ℤ), 240] [240, 192] ∧
    ((computeHabitStats .daily 240 [192, 240]).completedToday =
        (computeHabitStats .daily 240 [240, 192]).completedToday ∧
      (computeHabitStats .daily 240 [192, 240]).progress =
        (computeHabitStats .daily 240 [240, 192]).progress) :=
  ⟨List.Perm.swap 240 192 [],
    computeHabitStats_perm_invariant_parts .daily 240 [192, 240] [240, 192]
      (List.Perm.swap 240 192 [])⟩

/-- Rounding is monotone over the rationals. -/
theorem roundMonoRat {a b : ℚ} (h : a ≤ b) : round a ≤ round b := by
  rw [round_eq, round_eq]
  exact Int.floor_le_floor (by linarith)

/-- C4: progressPercent equals min(100, round(100 * recent / expected)),
    always lies in [0, 100] (the lower bound is inherent to ℕ), and does
    not decrease when a completion inside the trailing 30-day window is
    added to the list. -/
theorem progressPercent_formula_bounds_mono :
    ∀ (f : Frequency) (now : ℤ) (comps : List ℤ) (t : ℤ),
      progressPercent f now comps =
        min 100 (round ((100 * (recentCount now comps : ℚ)) /
          (expectedCompletions f : ℚ))).toNat ∧
      progressPercent f now comps ≤ 100 ∧
      (now - 30 * dayLen ≤ t →
        progressPercent f now comps ≤ progressPercent f now (t :: comps)) := by
  intro f now comps t
  refine ⟨?_, ?_, ?_⟩
  · have harg : (recentCount now comps : ℚ) / (expectedCompletions f : ℚ) * 100 =
        100 * (recentCount now comps : ℚ) / (expectedCompletions f : ℚ) := by ring
    rw [progressPercent, harg]
  · rw [progressPercent]
    exact min_le_left _ _
  · intro _ht
    rw [progressPercent, progressPercent]
    apply min_le_min le_rfl
    apply Int.toNat_le_toNat
    apply roundMonoRat
    have hcount : recentCount now comps ≤ recentCount now (t :: comps) := by
      simp only [recentCount, List.countP_cons]
      exact Nat.le_add_right _ _
    have hx : (recentCount now comps : ℚ) ≤ (recentCount now (t :: comps) : ℚ) := by
      exact_mod_cast hcount
    have hinv : (0 : ℚ) ≤ ((expectedCompletions f : ℚ))⁻¹ := by positivity
    rw [div_eq_mul_inv, div_eq_mul_inv]
    exact mul_le_mul_of_nonneg_right (mul_le_mul_of_nonneg_right hx hinv)
      (by norm_num)

/-- Witness for C4: adding a qualifying completion (hour 700, inside the
    30-day window before hour 720) does not decrease progress. -/
theorem progressPercent_formula_bounds_mono_witness :
    ((720 : ℤ) - 30 * dayLen ≤ 700) ∧
    progressPercent .daily 720 [650] ≤ progressPercent .daily 720 [700, 650] :=
  ⟨by decide, (progressPercent_formula_bounds_mono .daily 720 [650] 700).2.2 (by decide)⟩

/-- A Completion row: database id, completion timestamp, optional notes. -/
structure Completion where
  id : ℕ
  completedAt : ℤ
  notes : Option String
deriving DecidableEq

/-- Lower bound of the current-period window used by the check-in handlers
    (src/unnamed/part_004): start of today, or the midnight week start. -/
def checkinWindowLo : Frequency → ℤ → ℤ
  | .daily, now => dayStart now
  | .weekly, now => weekStart (dayStart now)

/-- Upper bound (exclusive) of the current-period window: start of the next
    day, or the week start plus seven days. -/
def checkinWindowHi : Frequency → ℤ → ℤ
  | .daily, now => dayStart now + dayLen
  | .weekly, now => weekStart (dayStart now) + 7 * dayLen

/-- The completedAt range filter of the findFirst calls in the check-in
    handlers: gte window start, lt window end. -/
def inWindowB (f : Frequency) (now : ℤ) (c : Completion) : Bool :=
  decide (checkinWindowLo f now ≤ c.completedAt) &&
    decide (c.completedAt < checkinWindowHi f now)

/-- Failure modes of the two check-in endpoints: 400 already completed for
    this period, 404 no completion found for this period. -/
inductive CheckinError
  | alreadyCompleted
  | nothingToUndo
deriving DecidableEq

/-- POST /api/habits/[id]/checkin for an owned habit: if a completion in the
    current period window exists, fail and write nothing; otherwise create
    one completion stamped with the current instant.  The pair carries the
    response and the resulting completion store. -/
def checkIn (f : Frequency) (now : ℤ) (freshId : ℕ) (notes : Option String)
    (comps : List Completion) : Except CheckinError Completion × List Completion :=
  match comps.find? (inWindowB f now) with
  | some _ => (.error .alreadyCompleted, comps)
  | none =>
    let c : Completion := ⟨freshId, now, notes⟩
    (.ok c, c :: comps)

/-- DELETE /api/habits/[id]/checkin for an owned habit: find the completion
    in the current period window; if none, fail and delete nothing;
    otherwise delete exactly the row with that completion's id. -/
def undoCheckIn (f : Frequency) (now : ℤ) (comps : List Completion) :
    Except CheckinError Unit × List Completion :=
  match comps.find? (inWindowB f now) with
  | none => (.error .nothingToUndo, comps)
  | some c => (.ok (), comps.eraseP (fun x => x.id == c.id))

theorem inWindowB_iff (f : Frequency) (now : ℤ) (c : Completion) :
    inWindowB f now c = true ↔
      normalizePeriod f c.completedAt = normalizePeriod f now := by
  cases f <;>
    simp only [inWindowB, checkinWindowLo, checkinWindowHi, normalizePeriod,
      weekStart, dayStart, dayOfWeek, dayLen, Bool.and_eq_true, decide_eq_true_eq] <;>
    omega

theorem self_inWindowB (f : Frequency) (now : ℤ) (idn : ℕ) (notes : Option String) :
    inWindowB f now ⟨idn, now, notes⟩ = true :=
  (inWindowB_iff f now _).mpr rfl

theorem inWindowB_congr (f : Frequency) {now now' : ℤ}
    (h : normalizePeriod f now' = normalizePeriod f now) (c : Completion) :
    inWindowB f now' c = inWindowB f now c := by
  have h1 := inWindowB_iff f now' c
  have h2 := inWindowB_iff f now c
  rw [h] at h1
  cases b1 : inWindowB f now' c <;> cases b2 : inWindowB f now c <;> simp_all

/-- C5: for an owned habit, a check-in while a current-period completion
    exists fails with the conflict error and leaves the store unchanged; a
    check-in with no current-period completion creates exactly one
    completion stamped with the current instant; and a second check-in in
    the same period as a first one always fails with the conflict error and
    changes nothing. -/
theorem checkIn_conflict_and_create :
    ∀ (f : Frequency) (now now2 : ℤ) (id1 id2 : ℕ) (n1 n2 : Option String)
      (comps : List Completion),
      ((∃ c ∈ comps, inWindowB f now c = true) →
        checkIn f now id1 n1 comps = (.error .alreadyCompleted, comps)) ∧
      ((∀ c ∈ comps, inWindowB f now c = false) →
        checkIn f now id1 n1 comps =
          (.ok ⟨id1, now, n1⟩, (⟨id1, now, n1⟩ : Completion) :: comps)) ∧
      (normalizePeriod f now2 = normalizePeriod f now →
        checkIn f now2 id2 n2 (checkIn f now id1 n1 comps).2 =
          (.error .alreadyCompleted, (checkIn f now id1 n1 comps).2)) := by
  intro f now now2 id1 id2 n1 n2 comps
  refine ⟨?_, ?_, ?_⟩
  · rintro ⟨c, hc, hw⟩
    cases hfind : comps.find? (inWindowB f now) with
    | some c0 => simp [checkIn, hfind]
    | none => exact absurd hw (by simpa using List.find?_eq_none.mp hfind c hc)
  · intro hall
    have hfind : comps.find? (inWindowB f now) = none :=
      List.find?_eq_none.mpr fun c hc => by simp [hall c hc]
    simp [checkIn, hfind]
  · intro hsame
    cases hfind : comps.find? (inWindowB f now) with
    | some c0 =>
      have hmem : c0 ∈ comps := List.mem_of_find?_eq_some hfind
      have hw : inWindowB f now c0 = true := List.find?_some hfind
      have hs : (checkIn f now id1 n1 comps).2 = comps := by simp [checkIn, hfind]
      rw [hs]
      cases hfind2 : comps.find? (inWindowB f now2) with
      | some c1 => simp [checkIn, hfind2]
      | none =>
        have := List.find?_eq_none.mp hfind2 c0 hmem
        rw [inWindowB_congr f hsame] at this
        exact absurd hw (by simpa using this)
    | none =>
      have hs : (checkIn f now id1 n1 comps).2 =
          (⟨id1, now, n1⟩ : Completion) :: comps := by simp [checkIn, hfind]
      rw [hs]
      have hnew : inWindowB f now2 ⟨id1, now, n1⟩ = true := by
        rw [inWindowB_congr f hsame]
        exact self_inWindowB f now id1 n1
      simp [checkIn, List.find?_cons_of_pos _ hnew]

/-- Witness for C5: a second daily check-in one hour after the first, on the
    same calendar day, fails with the conflict error and changes nothing. -/
theorem checkIn_conflict_and_create_witness :
    normalizePeriod .daily 101 = normalizePeriod .daily 100 ∧
    checkIn .daily 101 7 none (checkIn .daily 100 3 none []).2 =
      (.error .alreadyCompleted, (checkIn .daily 100 3 none []).2) :=
  ⟨by decide, (checkIn_conflict_and_create .daily 100 101 3 7 none none []).2.2 (by decide)⟩

theorem find?_append_middle {p : Completion → Bool} :
    ∀ (l1 : List Completion) (c : Completion) (l2 : List Completion),
      (∀ x ∈ l1, p x = false) → p c = true →
      List.find? p (l1 ++ c :: l2) = some c := by
  intro l1
  induction l1 with
  | nil =>
    intro c l2 _ hc
    exact List.find?_cons_of_pos l2 hc
  | cons a l ih =>
    intro c l2 hall hc
    have ha : p a = false := hall a (by simp)
    have : List.find? p (a :: (l ++ c :: l2)) = List.find? p (l ++ c :: l2) :=
      List.find?_cons_of_neg _ (by simp [ha])
    simpa [this] using ih c l2 (fun x hx => hall x (by simp [hx])) hc

theorem eraseP_append_middle :
    ∀ (l1 : List Completion) (c : Completion) (l2 : List Completion),
      (∀ x ∈ l1, x.id ≠ c.id) →
      List.eraseP (fun x => x.id == c.id) (l1 ++ c :: l2) = l1 ++ l2 := by
  intro l1
  induction l1 with
  | nil =>
    intro c l2 _
    exact List.eraseP_cons_of_pos (p := fun x => x.id == c.id) (l := l2) (by simp)
  | cons a l ih =>
    intro c l2 hall
    have ha : a.id ≠ c.id := hall a (by simp)
    have hstep : List.eraseP (fun x => x.id == c.id) (a :: (l ++ c :: l2)) =
        a :: List.eraseP (fun x => x.id == c.id) (l ++ c :: l2) :=
      List.eraseP_cons_of_neg (by simp [ha])
    simp only [List.cons_append, hstep, ih c l2 (fun x hx => hall x (by simp [hx]))]

/-- C6: with no completion in the current period, a check-in followed by an
    undo restores the completion store exactly; an undo with no
    current-period completion fails with the nothing-to-undo error and
    deletes nothing; and a successful undo deletes exactly the one
    completion the handler finds in the current period window, leaving
    every other completion (in particular all prior-period ones) in place. -/
theorem undoCheckIn_round_trip :
    ∀ (f : Frequency) (now : ℤ) (idn : ℕ) (notes : Option String)
      (comps : List Completion),
      ((∀ c ∈ comps, inWindowB f now c = false) →
        undoCheckIn f now (checkIn f now idn notes comps).2 = (.ok (), comps)) ∧
      ((∀ c ∈ comps, inWindowB f now c = false) →
        undoCheckIn f now comps = (.error .nothingToUndo, comps)) ∧
      (∀ (l1 l2 : List Completion) (c : Completion),
        comps = l1 ++ c :: l2 →
        (∀ x ∈ l1, inWindowB f now x = false) →
        inWindowB f now c = true →
        comps.Pairwise (fun a b => a.id ≠ b.id) →
        undoCheckIn f now comps = (.ok (), l1 ++ l2)) := by
  intro f now idn notes comps
  refine ⟨?_, ?_, ?_⟩
  · intro hall
    have hfind : comps.find? (inWindowB f now) = none :=
      List.find?_eq_none.mpr fun c hc => by simp [hall c hc]
    have hs : (checkIn f now idn notes comps).2 =
        (⟨idn, now, notes⟩ : Completion) :: comps := by simp [checkIn, hfind]
    rw [hs]
    have hfind2 : List.find? (inWindowB f now) ((⟨idn, now, notes⟩ : Completion) :: comps) =
        some ⟨idn, now, notes⟩ :=
      List.find?_cons_of_pos _ (self_inWindowB f now idn notes)
    have herase : List.eraseP (fun x => x.id == idn)
        ((⟨idn, now, notes⟩ : Completion) :: comps) = comps :=
      List.eraseP_cons_of_pos (by simp)
    simp [undoCheckIn, hfind2, herase]
  · intro hall
    have hfind : comps.find? (inWindowB f now) = none :=
      List.find?_eq_none.mpr fun c hc => by simp [hall c hc]
    simp [undoCheckIn, hfind]
  · intro l1 l2 c hsplit hl1 hc hids
    subst hsplit
    have hfind : List.find? (inWindowB f now) (l1 ++ c :: l2) = some c :=
      find?_append_middle l1 c l2 hl1 hc
    have hfresh : ∀ x ∈ l1, x.id ≠ c.id := by
      intro x hx
      exact (List.pairwise_append.mp hids).2.2 x hx c (by simp)
    simp [undoCheckIn, hfind, eraseP_append_middle l1 c l2 hfresh]

/-- Witness for C6: on an empty history, a daily check-in followed by an
    undo restores the empty history. -/
theorem undoCheckIn_round_trip_witness :
    (∀ c ∈ ([] : List Completion), inWindowB .daily 100 c = false) ∧
    undoCheckIn .daily 100 (checkIn .daily 100 3 none []).2 = (.ok (), []) :=
  ⟨fun c hc => absurd hc (List.not_mem_nil c),
    (undoCheckIn_round_trip .daily 100 3 none []).1
      (fun c hc => absurd hc (List.not_mem_nil c))⟩

/-- A Friendship row: a directed follow edge. -/
structure Friendship where
  followerId : ℕ
  followingId : ℕ
deriving DecidableEq

/-- A Completion row as the activity feed sees it. -/
structure FeedCompletion where
  id : ℕ
  userId : ℕ
  habitId : ℕ
  completedAt : ℤ
deriving DecidableEq

/-- The activity branch of GET /api/friends (src/app/api/friends/route.ts
    lines 89-121): collect the userIds the viewer follows, keep the
    completions performed by any of them, order them descending by
    completedAt (modelled by a stable insertion sort, as the database does
    the ordering) and cap the result at 50 rows. -/
def buildActivityFeed (friendships : List Friendship) (completions : List FeedCompletion)
    (viewerId : ℕ) : List FeedCompletion :=
  let followedUserIds :=
    (friendships.filter fun fr => fr.followerId == viewerId).map Friendship.followingId
  let recentActivity :=
    completions.filter fun c => decide (c.userId ∈ followedUserIds)
  (List.insertionSort (fun a b => b.completedAt ≤ a.completedAt) recentActivity).take 50

/-- C7: a viewer following nobody gets an empty feed (not an error); the
    feed never exceeds 50 events; every event is one of the stored
    completions and was performed by a user the viewer follows; and the
    feed is ordered descending by completion timestamp. -/
theorem buildActivityFeed_spec :
    ∀ (friendships : List Friendship) (completions : List FeedCompletion) (viewerId : ℕ),
      ((friendships.filter fun fr => fr.followerId == viewerId) = [] →
        buildActivityFeed friendships completions viewerId = []) ∧
      (buildActivityFeed friendships completions viewerId).length ≤ 50 ∧
      (∀ c ∈ buildActivityFeed friendships completions viewerId,
        c ∈ completions ∧
          ∃ fr ∈ friendships, fr.followerId = viewerId ∧ fr.followingId = c.userId) ∧
      List.Sorted (fun a b : ℤ => b ≤ a)
        ((buildActivityFeed friendships completions viewerId).map
          FeedCompletion.completedAt) := by
  intro friendships completions viewerId
  have htot : IsTotal FeedCompletion (fun a b => b.completedAt ≤ a.completedAt) :=
    ⟨fun a b => le_total b.completedAt a.completedAt⟩
  have htrans : IsTrans FeedCompletion (fun a b => b.completedAt ≤ a.completedAt) :=
    ⟨fun _ _ _ hab hbc => le_trans hbc hab⟩
  refine ⟨?_, ?_, ?_, ?_⟩
  · intro h
    simp [buildActivityFeed, h]
  · simp only [buildActivityFeed, List.length_take]
    exact Nat.min_le_left _ _
  · intro c hc
    have hsorted := List.mem_of_mem_take hc
    have hfilter : c ∈ completions.filter fun c => decide (c.userId ∈
        (friendships.filter fun fr => fr.followerId == viewerId).map
          Friendship.followingId) :=
      (List.perm_insertionSort _ _).subset hsorted
    obtain ⟨hmem, hdec⟩ := List.mem_filter.mp hfilter
    refine ⟨hmem, ?_⟩
    have hin := of_decide_eq_true hdec
    obtain ⟨fr, hfr, hfollow⟩ := List.mem_map.mp hin
    obtain ⟨hfr_mem, hbeq⟩ := List.mem_filter.mp hfr
    exact ⟨fr, hfr_mem, by simpa using hbeq, hfollow⟩
  · have hsorted := List.sorted_insertionSort
      (fun a b : FeedCompletion => b.completedAt ≤ a.completedAt)
      (completions.filter fun c => decide (c.userId ∈
        (friendships.filter fun fr => fr.followerId == viewerId).map
          Friendship.followingId))
    have htake := hsorted.sublist (List.take_sublist 50 _)
    exact List.pairwise_map.mpr htake

/-- Witness for C7: an empty follow list yields an empty feed even with
    completions present in the store. -/
theorem buildActivityFeed_spec_witness :
    (([] : List Friendship).filter (fun fr => fr.followerId == 1) = []) ∧
    buildActivityFeed [] [⟨1, 2, 3, 50⟩] 1 = [] :=
  ⟨rfl, (buildActivityFeed_spec [] [⟨1, 2, 3, 50⟩] 1).1 rfl⟩

/-- A User row as the auth and profile handlers see it. -/
structure StoredUser where
  id : ℕ
  email : String
  username : String
  passwordHash : String
deriving DecidableEq

/-- Character-by-character lowercasing: model of JS toLowerCase and of the
    ORM's insensitive string comparison mode on the ASCII emails and
    usernames the validation admits. -/
def lowerStr (s : String) : String := String.mk (s.data.map Char.toLower)

/-- Case-insensitive string equality. -/
def lowerEq (a b : String) : Bool := lowerStr a == lowerStr b

/-- POST /api/auth/signup after validation (src/unnamed/part_002 lines
    47-81): reject when any user matches the email or the username case
    insensitively; otherwise create the user with the hashed password.
    The hash function is a parameter (bcrypt in the source). -/
def signup (hashPw : String → String) (store : List StoredUser) (newId : ℕ)
    (email username password : String) : Except String (List StoredUser) :=
  match store.find? (fun u => lowerEq u.email email || lowerEq u.username username) with
  | some u =>
    .error (if lowerEq u.email email then "Email already registered"
      else "Username already taken")
  | none => .ok (⟨newId, email, username, hashPw password⟩ :: store)

/-- PUT /api/profile, username branch (src/unnamed/part_006 lines 139-173):
    when a username is supplied and differs from the current one, the
    handler rejects only if a user with EXACTLY that username exists
    (findUnique on the unique username column is case sensitive); otherwise
    it updates the requesting user's username. -/
def updateProfile (store : List StoredUser) (uid : ℕ) (newUsername : Option String) :
    Except String (List StoredUser) :=
  match store.find? (fun u => u.id == uid) with
  | none => .error ("Not authenticated")
  | some user =>
    match newUsername with
    | some un =>
      if un ≠ user.username ∧ (store.find? (fun v => v.username == un)).isSome then
        .error ("Username already taken")
      else
        .ok (store.map fun u => if u.id = uid then { u with username := un } else u)
    | none => .ok store

instance {ε α : Type} [DecidableEq ε] [DecidableEq α] : DecidableEq (Except ε α) :=
  fun x y =>
    match x, y with
    | .error a, .error b =>
      if h : a = b then .isTrue (h ▸ rfl) else .isFalse (fun hc => h (Except.error.inj hc))
    | .ok a, .ok b =>
      if h : a = b then .isTrue (h ▸ rfl) else .isFalse (fun hc => h (Except.ok.inj hc))
    | .error _, .ok _ => .isFalse (fun hc => Except.noConfusion hc)
    | .ok _, .error _ => .isFalse (fun hc => Except.noConfusion hc)

/-- No two users' usernames are equal up to case. -/
abbrev UsernamesCI (store : List StoredUser) : Prop :=
  store.Pairwise fun a b => lowerStr a.username ≠ lowerStr b.username

/-- C8 counterexample: in a store satisfying case-insensitive username
    uniqueness, a profile update to ALICE, which matches the existing user
    alice up to case, is ACCEPTED by the update handler (its duplicate
    check is exact-match only) and produces a store with two usernames
    differing only by case. -/
theorem updateProfile_accepts_case_variant :
    UsernamesCI [⟨1, "a@x", "alice", "h"⟩, ⟨2, "b@x", "bob", "h"⟩] ∧
    (∃ u ∈ [⟨1, "a@x", "alice", "h"⟩, (⟨2, "b@x", "bob", "h"⟩ : StoredUser)],
      lowerEq u.username ("ALICE") = true) ∧
    updateProfile [⟨1, "a@x", "alice", "h"⟩, ⟨2, "b@x", "bob", "h"⟩] 2 (some ("ALICE")) =
      .ok [⟨1, "a@x", "alice", "h"⟩, ⟨2, "b@x", "ALICE", "h"⟩] ∧
    ¬ UsernamesCI [⟨1, "a@x", "alice", "h"⟩, ⟨2, "b@x", "ALICE", "h"⟩] := by decide

/-- C8 amended: signup preserves the case-insensitive uniqueness invariant
    and rejects any new username that matches an existing one up to case,
    while profile update rejects only an exactly equal existing username,
    so the invariant is guaranteed by the signup path alone and not by the
    update path. -/
theorem signup_preserves_usernames_ci :
    ∀ (hashPw : String → String) (store : List StoredUser) (newId : ℕ)
      (email username password : String),
      (UsernamesCI store →
        ∀ store2, signup hashPw store newId email username password = .ok store2 →
          UsernamesCI store2) ∧
      ((∃ u ∈ store, lowerEq u.username username = true) →
        ∃ msg, signup hashPw store newId email username password = .error msg) ∧
      (∀ (uid : ℕ) (un : String) (user : StoredUser),
        store.find? (fun u => u.id == uid) = some user →
        un ≠ user.username →
        (∃ v ∈ store, v.username = un) →
        updateProfile store uid (some un) = .error ("Username already taken")) := by
  intro hashPw store newId email username password
  refine ⟨?_, ?_, ?_⟩
  · intro hinv store2 hok
    cases hfind : store.find?
        (fun u => lowerEq u.email email || lowerEq u.username username) with
    | some u => simp [signup, hfind] at hok
    | none =>
      have hstore2 : store2 =
          (⟨newId, email, username, hashPw password⟩ : StoredUser) :: store := by
        simp [signup, hfind] at hok
        exact hok.symm
      subst hstore2
      refine List.Pairwise.cons ?_ hinv
      intro u hu
      have hnot := List.find?_eq_none.mp hfind u hu
      simp only [Bool.or_eq_true, not_or] at hnot
      have : lowerEq u.username username = false := by
        cases hb : lowerEq u.username username
        · rfl
        · exact absurd hb hnot.2
      simp only [lowerEq, beq_eq_false_iff_ne, ne_eq] at this
      exact fun heq => this heq.symm
  · rintro ⟨u, hu, hlow⟩
    cases hfind : store.find?
        (fun u => lowerEq u.email email || lowerEq u.username username) with
    | some u0 =>
      refine ⟨if lowerEq u0.email email then "Email already registered"
        else "Username already taken", ?_⟩
      simp only [signup, hfind]
    | none =>
      have := List.find?_eq_none.mp hfind u hu
      simp [hlow] at this
  · intro uid un user hfind hne hex
    have hsome : (store.find? (fun v => v.username == un)).isSome = true :=
      List.find?_isSome.mpr (by
        obtain ⟨v, hv, hveq⟩ := hex
        exact ⟨v, hv, by simp [hveq]⟩)
    simp [updateProfile, hfind, hne, hsome]

/-- Witness for the amended C8: the update handler does reject an exactly
    duplicated username. -/
theorem signup_preserves_usernames_ci_witness :
    (([⟨1, "a@x", "alice", "h"⟩, (⟨2, "b@x", "bob", "h"⟩ : StoredUser)].find?
        (fun u => u.id == 2) = some ⟨2, "b@x", "bob", "h"⟩) ∧
      ("alice" : String) ≠ "bob" ∧
      (∃ v ∈ [⟨1, "a@x", "alice", "h"⟩, (⟨2, "b@x", "bob", "h"⟩ : StoredUser)],
        v.username = "alice")) ∧
    updateProfile [⟨1, "a@x", "alice", "h"⟩, ⟨2, "b@x", "bob", "h"⟩] 2 (some ("alice")) =
      .error ("Username already taken") :=
  ⟨⟨by decide, by decide, by decide⟩,
    (signup_preserves_usernames_ci id
        [⟨1, "a@x", "alice", "h"⟩, ⟨2, "b@x", "bob", "h"⟩] 0
        ("x@x") ("x") ("x")).2.2 2 ("alice") ⟨2, "b@x", "bob", "h"⟩
      (by decide) (by decide) (by decide)⟩

/-- A login response: failure with message and HTTP status, or success with
    the authenticated user's id. -/
inductive LoginResp
  | failure (msg : String) (status : ℕ)
  | success (userId : ℕ)
deriving DecidableEq

/-- POST /api/auth/login after validation (src/app/api/auth/login/route.ts
    lines 28-52): look the user up by case-insensitive email (the handler
    lowercases the input first, which lowerEq absorbs), then verify the
    password; an unknown email and a failed verification both return 401
    with the same message.  verifyPassword is the bcrypt comparison, taken
    as a parameter. -/
def login (verify : String → String → Bool) (store : List StoredUser)
    (email password : String) : LoginResp :=
  match store.find? (fun u => lowerEq u.email email) with
  | none => .failure ("Invalid email or password") 401
  | some u =>
    if verify password u.passwordHash then .success u.id
    else .failure ("Invalid email or password") 401

/-- C9: the response to a login that fails because the email is unknown is
    identical (same error message, same status code) to the response to a
    login that fails because the password is wrong for an existing email,
    across any two stores, requests and verifiers. -/
theorem login_failures_indistinguishable :
    ∀ (v1 v2 : String → String → Bool) (s1 s2 : List StoredUser)
      (e1 p1 e2 p2 : String) (u : StoredUser),
      s1.find? (fun x => lowerEq x.email e1) = none →
      s2.find? (fun x => lowerEq x.email e2) = some u →
      v2 p2 u.passwordHash = false →
      login v1 s1 e1 p1 = login v2 s2 e2 p2 := by
  intro v1 v2 s1 s2 e1 p1 e2 p2 u h1 h2 hv
  simp [login, h1, h2, hv]

/-- Witness for C9: unknown email against an empty store versus wrong
    password for an existing user give the same response. -/
theorem login_failures_indistinguishable_witness :
    ((([] : List StoredUser).find? (fun x => lowerEq x.email ("a@x")) = none) ∧
      ([(⟨1, "b@x", "bob", "hash"⟩ : StoredUser)].find?
          (fun x => lowerEq x.email ("b@x")) = some ⟨1, "b@x", "bob", "hash"⟩) ∧
      (fun _ _ : String => false) ("p") ("hash") = false) ∧
    login (fun _ _ => false) [] ("a@x") ("p") =
      login (fun _ _ => false) [⟨1, "b@x", "bob", "hash"⟩] ("b@x") ("p") :=
  ⟨⟨rfl, by decide, rfl⟩,
    login_failures_indistinguishable (fun _ _ => false) (fun _ _ => false)
      [] [⟨1, "b@x", "bob", "hash"⟩] ("a@x") ("p") ("b@x") ("p")
      ⟨1, "b@x", "bob", "hash"⟩ rfl (by decide) rfl⟩

end HealthTracker
